import Mathlib

/-!
Verification of the raw-ipa MPC protocol core against its specification.

The development shallowly embeds the relevant program fragments:

* the per-user-credit-cap dispatch of `OprfIpaQuery::execute`
  (ipa-core/src/query/runner/oprf_ipa.rs);
* the byte-level serialization of boolean arrays and
  `concatenate_row_and_tag` (ipa-core/src/protocol/ipa_prf/shuffle/malicious.rs);
* the replicated-sharing algebra, `semi_honest_multiply`,
  `compute_and_add_tags`, `reveal_keys`, `compute_row_hash` and `h1_verify`
  of the malicious shuffle;
* the attribution / capping / aggregation pipeline behind `oprf_ipa`
  (src/protocol/ipa_prf/mod.rs);
* the radix-sort permutation generator `generate_permutation`
  (src/protocol/sort/generate_permutation.rs);
* `extended_binary_gcd` and `mod_inverse`
  (src/helpers/prf_compute/multiplicative_inverse.rs).

Where a helper that the embedded code calls is not part of the sources
(only its callers are), the helper is modelled from the specification;
such definitions carry a doc comment starting with `Modelled from the spec`.
Machine integers of the source are modelled as `Nat`/`Int`; fallible code
returns `Option`/`Except`; the `GF(2^32)` share algebra is modelled over an
arbitrary commutative ring, which the field `GF(2^32)` is an instance of.
-/

namespace RawIpa

/-- The three hash comparisons performed by `h1_verify`, in source order.
They identify which `ShuffleValidationFailed` message is produced. -/
inductive ShuffleCheck where
  | y1Inconsistent
  | cFromH3Inconsistent
  | cFromH2Inconsistent
deriving DecidableEq

/-- Error kinds of the protocol engine (spec section 7). -/
inductive ProtoError where
  | Network
  | ShuffleValidationFailed (c : ShuffleCheck)
  | Inconsistent
  | InvalidConfig
  | InvalidArgument
  | DuplicateRecord
  | OutOfBounds
  | Canceled
  | Serialization
deriving DecidableEq

/- ------------------------------------------------------------------ -/
/- C9: the per-user-credit-cap dispatch of `OprfIpaQuery::execute`.    -/
/- ------------------------------------------------------------------ -/

/-- Outcome of `OprfIpaQuery::execute`'s cap dispatch: either the pipeline
runs with a chosen capped-value bit-width (the `BA3`..`BA7` type parameter),
or an error value is returned, or the process panics. -/
inductive ExecuteOutcome where
  | run (tvBits : Nat)
  | err (e : ProtoError)
  | panicked
deriving DecidableEq

/-- Embedding of the `match config.per_user_credit_cap` dispatch in
`OprfIpaQuery::execute` (ipa-core/src/query/runner/oprf_ipa.rs, lines 87-97).
Caps 8, 16, 32, 64, 128 select `BA3`, `BA4`, `BA5`, `BA6`, `BA7`; every
other value hits the `panic!` arm. -/
def oprfIpaQueryExecuteDispatch (cap : Nat) : ExecuteOutcome :=
  if cap = 8 then .run 3
  else if cap = 16 then .run 4
  else if cap = 32 then .run 5
  else if cap = 64 then .run 6
  else if cap = 128 then .run 7
  else .panicked

/-- C9 counterexample: at `per_user_credit_cap = 12` the dispatch panics; it
does not return the `InvalidConfig` error the claim announces. -/
theorem C9_invalid_cap_panics_not_invalid_config :
    oprfIpaQueryExecuteDispatch 12 = ExecuteOutcome.panicked ∧
      ExecuteOutcome.panicked ≠ ExecuteOutcome.err ProtoError.InvalidConfig := by
  decide

/-- C9 (amended): for caps 8, 16, 32, 64, 128 the query runs with a
capped-value bit-width of exactly `log2 cap` bits (8→3, 16→4, 32→5, 64→6,
128→7); for every other cap the query fails before execution by a panic
(not by returning `InvalidConfig`). -/
theorem C9_cap_dispatch (cap : Nat) :
    ((cap = 8 ∨ cap = 16 ∨ cap = 32 ∨ cap = 64 ∨ cap = 128) →
      oprfIpaQueryExecuteDispatch cap = ExecuteOutcome.run (Nat.log 2 cap)) ∧
    (¬(cap = 8 ∨ cap = 16 ∨ cap = 32 ∨ cap = 64 ∨ cap = 128) →
      oprfIpaQueryExecuteDispatch cap = ExecuteOutcome.panicked) := by
  constructor
  · have l8 : Nat.log 2 8 = 3 := Nat.log_eq_of_pow_le_of_lt_pow (by norm_num) (by norm_num)
    have l16 : Nat.log 2 16 = 4 := Nat.log_eq_of_pow_le_of_lt_pow (by norm_num) (by norm_num)
    have l32 : Nat.log 2 32 = 5 := Nat.log_eq_of_pow_le_of_lt_pow (by norm_num) (by norm_num)
    have l64 : Nat.log 2 64 = 6 := Nat.log_eq_of_pow_le_of_lt_pow (by norm_num) (by norm_num)
    have l128 : Nat.log 2 128 = 7 := Nat.log_eq_of_pow_le_of_lt_pow (by norm_num) (by norm_num)
    rintro (rfl | rfl | rfl | rfl | rfl) <;>
      simp [oprfIpaQueryExecuteDispatch, l8, l16, l32, l64, l128]
  · intro h
    push_neg at h
    obtain ⟨h8, h16, h32, h64, h128⟩ := h
    simp [oprfIpaQueryExecuteDispatch, h8, h16, h32, h64, h128]

/-- C9 witness: the amended theorem applied at `cap = 16`. -/
theorem C9_cap_dispatch_witness :
    oprfIpaQueryExecuteDispatch 16 = ExecuteOutcome.run (Nat.log 2 16) :=
  (C9_cap_dispatch 16).1 (Or.inr (Or.inl rfl))

/- ------------------------------------------------------------------ -/
/- Byte-level serialization of boolean arrays (for C6, C7).            -/
/- ------------------------------------------------------------------ -/

/-- Value of a little-endian byte list. -/
def bytesToNat : List Nat → Nat
  | [] => 0
  | b :: bs => b + 256 * bytesToNat bs

/-- Little-endian byte serialization of a value into `k` bytes. -/
def serializeBytes : Nat → Nat → List Nat
  | 0, _ => []
  | k + 1, v => v % 256 :: serializeBytes k (v / 256)

/-- Number of bytes in the serialized form of a `bits`-wide boolean array. -/
def numBytes (bits : Nat) : Nat := (bits + 7) / 8

/-- Modelled from the spec: serialization of a boolean array `BA_k`
(spec 4.A: byte-aligned little-endian fixed-width serialization); the
concrete `BooleanArray` implementations are not under the given sources.
A `BA_k` value is modelled as a natural number below `2 ^ k`. -/
def serializeBA (bits : Nat) (v : Nat) : List Nat :=
  serializeBytes (numBytes bits) v

/-- Modelled from the spec: deserialization of a boolean array `BA_k`.
It consumes exactly `numBytes bits` bytes and requires the value to fit
in `bits` bits (the source's `deserialize(...).unwrap()` panics otherwise,
and collecting into the `GenericArray` panics on a length mismatch; both
failure modes are modelled as `none`). -/
def deserializeBA (bits : Nat) (bytes : List Nat) : Option Nat :=
  if bytes.length = numBytes bits ∧ bytesToNat bytes < 2 ^ bits then
    some (bytesToNat bytes)
  else none

/-- One helper's replicated share: a `(left, right)` pair (spec section 3). -/
structure AdditiveShare (R : Type) where
  left : R
  right : R
deriving DecidableEq

/-- Embedding of `concatenate_row_and_tag`
(ipa-core/src/protocol/ipa_prf/shuffle/malicious.rs, lines 329-345):
serialize the row and tag components, chain the bytes and deserialize the
concatenation as the combined type of `bBits` bits; `sBits` is the row
width and the tag is 32 bits wide. -/
def concatenate_row_and_tag (sBits bBits : Nat)
    (row tag : AdditiveShare Nat) : Option (AdditiveShare Nat) :=
  match deserializeBA bBits (serializeBA sBits row.left ++ serializeBA 32 tag.left),
      deserializeBA bBits (serializeBA sBits row.right ++ serializeBA 32 tag.right) with
  | some l, some r => some (AdditiveShare.mk l r)
  | _, _ => none

theorem length_serializeBytes (k v : Nat) : (serializeBytes k v).length = k := by
  induction k generalizing v with
  | zero => rfl
  | succ k ih => simp [serializeBytes, ih]

theorem serializeBytes_lt (k v : Nat) : ∀ x ∈ serializeBytes k v, x < 256 := by
  induction k generalizing v with
  | zero => simp [serializeBytes]
  | succ k ih =>
    intro x hx
    simp only [serializeBytes, List.mem_cons] at hx
    rcases hx with rfl | hx
    · exact Nat.mod_lt _ (by norm_num)
    · exact ih _ x hx

theorem bytesToNat_serializeBytes (k v : Nat) :
    bytesToNat (serializeBytes k v) = v % 256 ^ k := by
  induction k generalizing v with
  | zero => simp [serializeBytes, bytesToNat, Nat.mod_one]
  | succ k ih =>
    have h256 : (256 : Nat) ∣ 256 ^ (k + 1) := dvd_pow_self 256 (Nat.succ_ne_zero k)
    have hmod : v % 256 ^ (k + 1) % 256 = v % 256 := Nat.mod_mod_of_dvd v h256
    have hdiv : v / 256 % 256 ^ k = v % 256 ^ (k + 1) / 256 := by
      rw [pow_succ, mul_comm (256 ^ k) 256, Nat.mod_mul_right_div_self]
    simp only [serializeBytes, bytesToNat, ih, hdiv]
    omega

theorem serializeBytes_bytesToNat (bs : List Nat) (h : ∀ x ∈ bs, x < 256) :
    serializeBytes bs.length (bytesToNat bs) = bs := by
  induction bs with
  | nil => rfl
  | cons b t ih =>
    have hb : b < 256 := h b (List.mem_cons_self b t)
    have hmod : (b + 256 * bytesToNat t) % 256 = b := by
      rw [Nat.add_mul_mod_self_left]
      exact Nat.mod_eq_of_lt hb
    have hdiv : (b + 256 * bytesToNat t) / 256 = bytesToNat t := by
      rw [Nat.add_mul_div_left _ _ (by norm_num : (0:Nat) < 256)]
      omega
    simp only [List.length_cons, serializeBytes, bytesToNat, hmod, hdiv]
    rw [ih (fun x hx => h x (List.mem_cons_of_mem b hx))]

theorem bytesToNat_append (xs ys : List Nat) :
    bytesToNat (xs ++ ys) = bytesToNat xs + 256 ^ xs.length * bytesToNat ys := by
  induction xs with
  | nil => simp [bytesToNat]
  | cons b t ih =>
    simp only [List.cons_append, bytesToNat, List.length_cons, List.append_eq]
    rw [ih]
    ring

theorem numBytes_split (s b : Nat) (hsb : s + 32 = b) (hal : 8 ∣ s) :
    numBytes s + numBytes 32 = numBytes b := by
  simp only [numBytes]
  omega

theorem pow256_numBytes (s : Nat) (hal : 8 ∣ s) : 256 ^ numBytes s = 2 ^ s := by
  have h8 : numBytes s = s / 8 := by simp only [numBytes]; omega
  rw [h8, show (256 : Nat) = 2 ^ 8 from rfl, ← pow_mul]
  congr 1
  omega

theorem concat_bytes_ok (s b v w : Nat) (hsb : s + 32 = b) (hal : 8 ∣ s)
    (hv : v < 2 ^ s) (hw : w < 2 ^ 32) :
    deserializeBA b (serializeBA s v ++ serializeBA 32 w) = some (v + 2 ^ s * w) ∧
      serializeBA b (v + 2 ^ s * w) = serializeBA s v ++ serializeBA 32 w := by
  have hlen : (serializeBA s v ++ serializeBA 32 w).length = numBytes b := by
    simp only [List.length_append, serializeBA, length_serializeBytes]
    exact numBytes_split s b hsb hal
  have hval : bytesToNat (serializeBA s v ++ serializeBA 32 w) = v + 2 ^ s * w := by
    simp only [serializeBA, bytesToNat_append, bytesToNat_serializeBytes,
      length_serializeBytes]
    rw [pow256_numBytes s hal]
    have hw4 : w % 256 ^ numBytes 32 = w := by
      apply Nat.mod_eq_of_lt
      calc w < 2 ^ 32 := hw
        _ ≤ 256 ^ numBytes 32 := by norm_num [numBytes]
    have hv8 : v % 2 ^ s = v := Nat.mod_eq_of_lt hv
    rw [hw4, hv8]
  have hlt : v + 2 ^ s * w < 2 ^ b := by
    calc v + 2 ^ s * w < 2 ^ s + 2 ^ s * w := Nat.add_lt_add_right hv _
      _ = 2 ^ s * (1 + w) := by ring
      _ ≤ 2 ^ s * 2 ^ 32 := Nat.mul_le_mul_left _ (by omega)
      _ = 2 ^ b := by rw [← pow_add, hsb]
  have hdeser : deserializeBA b (serializeBA s v ++ serializeBA 32 w) =
      some (v + 2 ^ s * w) := by
    simp only [deserializeBA, hlen, hval]
    simp [hlt]
  refine ⟨hdeser, ?_⟩
  have hbytes : ∀ x ∈ serializeBA s v ++ serializeBA 32 w, x < 256 := by
    intro x hx
    rcases List.mem_append.mp hx with h | h
    · exact serializeBytes_lt _ _ x h
    · exact serializeBytes_lt _ _ x h
  calc serializeBA b (v + 2 ^ s * w)
      = serializeBytes ((serializeBA s v ++ serializeBA 32 w).length)
          (bytesToNat (serializeBA s v ++ serializeBA 32 w)) := by
        rw [hval, hlen]; rfl
    _ = serializeBA s v ++ serializeBA 32 w :=
        serializeBytes_bytesToNat _ hbytes

/-- C6: when `S::BITS + 32 = B::BITS` (all such boolean-array pairs used by
the source are byte aligned, hence the `8 ∣ s` hypothesis), concatenating a
row share and a tag share succeeds, and serializing each component of the
result and splitting the bytes at offset `ceil(S::BITS/8)` recovers the
original row component and tag component bit for bit. -/
theorem C6_concatenate_row_and_tag_roundtrip (s b : Nat)
    (row tag : AdditiveShare Nat) (hsb : s + 32 = b) (hal : 8 ∣ s)
    (hrl : row.left < 2 ^ s) (hrr : row.right < 2 ^ s)
    (htl : tag.left < 2 ^ 32) (htr : tag.right < 2 ^ 32) :
    ∃ res, concatenate_row_and_tag s b row tag = some res ∧
      (serializeBA b res.left).take (numBytes s) = serializeBA s row.left ∧
      (serializeBA b res.left).drop (numBytes s) = serializeBA 32 tag.left ∧
      (serializeBA b res.right).take (numBytes s) = serializeBA s row.right ∧
      (serializeBA b res.right).drop (numBytes s) = serializeBA 32 tag.right := by
  obtain ⟨hdl, hsl⟩ := concat_bytes_ok s b row.left tag.left hsb hal hrl htl
  obtain ⟨hdr, hsr⟩ := concat_bytes_ok s b row.right tag.right hsb hal hrr htr
  refine ⟨AdditiveShare.mk (row.left + 2 ^ s * tag.left)
    (row.right + 2 ^ s * tag.right), ?_, ?_, ?_, ?_, ?_⟩
  · simp only [concatenate_row_and_tag, hdl, hdr]
  · rw [hsl, show numBytes s = (serializeBA s row.left).length from
      (length_serializeBytes _ _).symm, List.take_left]
  · rw [hsl, show numBytes s = (serializeBA s row.left).length from
      (length_serializeBytes _ _).symm, List.drop_left]
  · rw [hsr, show numBytes s = (serializeBA s row.right).length from
      (length_serializeBytes _ _).symm, List.take_left]
  · rw [hsr, show numBytes s = (serializeBA s row.right).length from
      (length_serializeBytes _ _).symm, List.drop_left]

/-- C6 witness: the round trip at `S = BA32`, `B = BA64` with concrete
row shares `(5, 6)` and tag shares `(7, 8)`. -/
theorem C6_concatenate_row_and_tag_roundtrip_witness :
    (32 + 32 = 64 ∧ (8 : Nat) ∣ 32) ∧
      ∃ res, concatenate_row_and_tag 32 64 (AdditiveShare.mk 5 6)
          (AdditiveShare.mk 7 8) = some res ∧
        (serializeBA 64 res.left).take (numBytes 32) = serializeBA 32 5 ∧
        (serializeBA 64 res.left).drop (numBytes 32) = serializeBA 32 7 ∧
        (serializeBA 64 res.right).take (numBytes 32) = serializeBA 32 6 ∧
        (serializeBA 64 res.right).drop (numBytes 32) = serializeBA 32 8 :=
  ⟨⟨rfl, by decide⟩,
    C6_concatenate_row_and_tag_roundtrip 32 64 (AdditiveShare.mk 5 6)
      (AdditiveShare.mk 7 8) rfl (by decide) (by norm_num) (by norm_num)
      (by norm_num) (by norm_num)⟩

/-- C7: at `S = BA32`, `B = BA112` (so prefix + tag width is 64 ≠ 112) the
concatenation of a row and tag produces no value at all — the byte string
is 8 bytes long while `BA112` deserialization consumes 14 bytes, which in
the source is the panic `GenericArray::from_iter expected 14 items`
asserted by the test `bad_initialization_too_large`.  In particular no
`InvalidConfig` error value is returned. -/
theorem C7_bad_width_gives_no_value :
    concatenate_row_and_tag 32 112 (AdditiveShare.mk 0 0)
      (AdditiveShare.mk 0 0) = none := by
  decide

/- ------------------------------------------------------------------ -/
/- Replicated sharing algebra (spec sections 3, 4.B, 4.F, 4.G).        -/
/- ------------------------------------------------------------------ -/

/-- A replicated sharing of one value: the three helpers' `(left, right)`
pairs (spec section 3).  The share algebra of `GF(2^32)` is modelled over
an arbitrary commutative ring `R`. -/
structure Sharing (R : Type) where
  h1 : AdditiveShare R
  h2 : AdditiveShare R
  h3 : AdditiveShare R
deriving DecidableEq

/-- Replication invariant (spec section 3): each helper's `left` equals the
previous helper's `right`. -/
def Sharing.Valid {R : Type} (x : Sharing R) : Prop :=
  x.h2.left = x.h1.right ∧ x.h3.left = x.h2.right ∧ x.h1.left = x.h3.right

instance {R : Type} [DecidableEq R] (x : Sharing R) : Decidable x.Valid := by
  unfold Sharing.Valid
  infer_instance

/-- Reconstruction of a replicated sharing: the sum of the three helpers'
`left` components (spec section 3). -/
def Sharing.reconstruct {R : Type} [Add R] (x : Sharing R) : R :=
  x.h1.left + x.h2.left + x.h3.left

/-- Componentwise sum of two replicated sharings (the linear share ops of
spec section 4.B). -/
def Sharing.add {R : Type} [Add R] (x y : Sharing R) : Sharing R :=
  ⟨⟨x.h1.left + y.h1.left, x.h1.right + y.h1.right⟩,
    ⟨x.h2.left + y.h2.left, x.h2.right + y.h2.right⟩,
    ⟨x.h3.left + y.h3.left, x.h3.right + y.h3.right⟩⟩

/-- The all-zero sharing (`AdditiveShare::ZERO`). -/
def Sharing.zero {R : Type} [Zero R] : Sharing R :=
  ⟨⟨0, 0⟩, ⟨0, 0⟩, ⟨0, 0⟩⟩

theorem Sharing.reconstruct_add {R : Type} [AddCommMonoid R] (x y : Sharing R) :
    (Sharing.add x y).reconstruct = x.reconstruct + y.reconstruct := by
  simp only [Sharing.add, Sharing.reconstruct]
  abel

theorem Sharing.reconstruct_zero {R : Type} [AddCommMonoid R] :
    (Sharing.zero : Sharing R).reconstruct = 0 := by
  simp [Sharing.zero, Sharing.reconstruct]

/-- Modelled from the spec (section 4.F): semi-honest replicated-share
multiplication.  Helper `i` holds `(a_i, a_{i+1})` as `(left, right)`,
draws the PRSS zero-share pair `(s_i, s_{i+1})` and computes
`d_i = a_i b_i + a_i b_{i+1} + a_{i+1} b_i + s_i - s_{i+1}`, sends `d_i`
right, receives `d_{i-1}` and keeps `(d_i, d_{i-1})`.  The PRSS draw is
passed in as `s : Fin 3 → R`. -/
def semi_honest_multiply {R : Type} [CommRing R] (a b : Sharing R)
    (s : Fin 3 → R) : Sharing R :=
  ⟨⟨a.h1.left * b.h1.left + a.h1.left * b.h1.right + a.h1.right * b.h1.left
      + s 0 - s 1,
    a.h3.left * b.h3.left + a.h3.left * b.h3.right + a.h3.right * b.h3.left
      + s 2 - s 0⟩,
    ⟨a.h2.left * b.h2.left + a.h2.left * b.h2.right + a.h2.right * b.h2.left
      + s 1 - s 2,
    a.h1.left * b.h1.left + a.h1.left * b.h1.right + a.h1.right * b.h1.left
      + s 0 - s 1⟩,
    ⟨a.h3.left * b.h3.left + a.h3.left * b.h3.right + a.h3.right * b.h3.left
      + s 2 - s 0,
    a.h2.left * b.h2.left + a.h2.left * b.h2.right + a.h2.right * b.h2.left
      + s 1 - s 2⟩⟩

/-- Spec section 8 invariant 6: the semi-honest product of two valid
replicated sharings reconstructs to the product of the reconstructions,
whatever the PRSS draw was. -/
theorem reconstruct_semi_honest_multiply {R : Type} [CommRing R]
    (a b : Sharing R) (s : Fin 3 → R) (ha : a.Valid) (hb : b.Valid) :
    (semi_honest_multiply a b s).reconstruct = a.reconstruct * b.reconstruct := by
  obtain ⟨ha2, ha3, ha1⟩ := ha
  obtain ⟨hb2, hb3, hb1⟩ := hb
  simp only [semi_honest_multiply, Sharing.reconstruct, ← ha2, ← ha3, ← ha1,
    ← hb2, ← hb3, ← hb1]
  ring

/-- Inner product `Σ_j k_j · x_j` of two coefficient lists (clear values). -/
def innerProd {R : Type} [CommRing R] : List R → List R → R
  | k :: ks, x :: xs => k * x + innerProd ks xs
  | _, _ => 0

/-- Tag computation of `compute_and_add_tags` for one row: the share-level
inner product of the row limbs and the MAC key shares, each product being
one `semi_honest_multiply` at consecutive record ids.  The record id
supplies the PRSS draw through `σ`.  (The source folds the products with
`+` starting from `ZERO`; the fold orientation does not change the sum.) -/
def tagShare {R : Type} [CommRing R] (σ : Nat → Fin 3 → R) :
    List (Sharing R) → List (Sharing R) → Nat → Sharing R
  | re :: row, k :: keys, j =>
      Sharing.add (semi_honest_multiply re k (σ j)) (tagShare σ row keys (j + 1))
  | _, _, _ => Sharing.zero

/-- Embedding of `compute_and_add_tags`
(ipa-core/src/protocol/ipa_prf/shuffle/malicious.rs, lines 285-322).
Rows are given as their `Gf32Bit` limb sharings (the `to_gf32bit` split),
`keys` holds one MAC key sharing per limb, and `σ` is the PRSS draw per
record id; record ids are `i * keys.length + j` for row `i`, limb `j`.
A zero record total — empty `rows` or empty `keys` — is rejected (the
source's `TotalRecords::specified(0)`).  The concatenation `row ‖ tag` is
modelled as the pair of the row and its tag sharing. -/
def compute_and_add_tags {R : Type} [CommRing R] (keys : List (Sharing R))
    (rows : List (List (Sharing R))) (σ : Nat → Fin 3 → R) :
    Except ProtoError (List (List (Sharing R) × Sharing R)) :=
  if rows.length * keys.length = 0 then .error .InvalidArgument
  else .ok (rows.enum.map
    (fun p => (p.2, tagShare σ p.2 keys (p.1 * keys.length))))

theorem reconstruct_tagShare {R : Type} [CommRing R] (σ : Nat → Fin 3 → R) :
    ∀ (row keys : List (Sharing R)) (j : Nat),
      (∀ k ∈ keys, k.Valid) → (∀ x ∈ row, x.Valid) →
      (tagShare σ row keys j).reconstruct =
        innerProd (keys.map Sharing.reconstruct) (row.map Sharing.reconstruct)
  | [], [], _, _, _ => by simp [tagShare, innerProd, Sharing.reconstruct_zero]
  | [], _ :: _, _, _, _ => by simp [tagShare, innerProd, Sharing.reconstruct_zero]
  | _ :: _, [], _, _, _ => by simp [tagShare, innerProd, Sharing.reconstruct_zero]
  | re :: row, k :: keys, j, hk, hr => by
    have hkh : k.Valid := hk k (List.mem_cons_self k keys)
    have hrh : re.Valid := hr re (List.mem_cons_self re row)
    have ih := reconstruct_tagShare σ row keys (j + 1)
      (fun x hx => hk x (List.mem_cons_of_mem k hx))
      (fun x hx => hr x (List.mem_cons_of_mem re hx))
    simp only [tagShare, List.map_cons, innerProd, Sharing.reconstruct_add,
      reconstruct_semi_honest_multiply re k (σ j) hrh hkh, ih]
    ring

/-- C3: for a non-empty list of rows and non-empty MAC key shares (one per
32-bit limb), `compute_and_add_tags` returns, for each row, the row paired
with a tag whose reconstruction is the inner product of the reconstructed
keys with the row's reconstructed limbs — for every PRSS draw. -/
theorem C3_compute_and_add_tags_sound {R : Type} [CommRing R]
    (keys : List (Sharing R)) (rows : List (List (Sharing R)))
    (σ : Nat → Fin 3 → R) (hk : keys ≠ []) (hr : rows ≠ [])
    (hkv : ∀ k ∈ keys, k.Valid) (hrv : ∀ row ∈ rows, ∀ x ∈ row, x.Valid) :
    ∃ out, compute_and_add_tags keys rows σ = .ok out ∧
      out.length = rows.length ∧
      ∀ i, i < rows.length →
        (out.getD i ([], Sharing.zero)).1 = rows.getD i [] ∧
        ((out.getD i ([], Sharing.zero)).2).reconstruct =
          innerProd (keys.map Sharing.reconstruct)
            ((rows.getD i []).map Sharing.reconstruct) := by
  have hnz : rows.length * keys.length ≠ 0 := by
    simp [Nat.mul_ne_zero_iff, List.length_eq_zero, hk, hr]
  refine ⟨rows.enum.map
    (fun p => (p.2, tagShare σ p.2 keys (p.1 * keys.length))), ?_, ?_, ?_⟩
  · simp [compute_and_add_tags, hnz]
  · simp
  · intro i hi
    have hlen : i < (rows.enum.map
        (fun p => (p.2, tagShare σ p.2 keys (p.1 * keys.length)))).length := by
      simpa using hi
    rw [List.getD_eq_getElem _ _ hlen, List.getD_eq_getElem _ _ hi]
    simp only [List.getElem_map, List.getElem_enum]
    refine ⟨trivial, ?_⟩
    exact reconstruct_tagShare σ rows[i] keys (i * keys.length) hkv
      (hrv rows[i] (List.getElem_mem hi))

/-- C3 witness: one row with one limb sharing of `3` and one key sharing of
`2`, all-zero PRSS draw; the tag reconstructs to `2 * 3 = 6`. -/
theorem C3_compute_and_add_tags_sound_witness :
    ∃ out, compute_and_add_tags (R := Int)
        [⟨⟨2, 0⟩, ⟨0, 0⟩, ⟨0, 2⟩⟩] [[⟨⟨3, 0⟩, ⟨0, 0⟩, ⟨0, 3⟩⟩]]
        (fun _ _ => 0) = .ok out ∧
      out.length = [[(⟨⟨3, 0⟩, ⟨0, 0⟩, ⟨0, 3⟩⟩ : Sharing Int)]].length ∧
      ∀ i, i < [[(⟨⟨3, 0⟩, ⟨0, 0⟩, ⟨0, 3⟩⟩ : Sharing Int)]].length →
        (out.getD i ([], Sharing.zero)).1 =
          [[(⟨⟨3, 0⟩, ⟨0, 0⟩, ⟨0, 3⟩⟩ : Sharing Int)]].getD i [] ∧
        ((out.getD i ([], Sharing.zero)).2).reconstruct =
          innerProd ([(⟨⟨2, 0⟩, ⟨0, 0⟩, ⟨0, 2⟩⟩ : Sharing Int)].map
              Sharing.reconstruct)
            (([[(⟨⟨3, 0⟩, ⟨0, 0⟩, ⟨0, 3⟩⟩ : Sharing Int)]].getD i []).map
              Sharing.reconstruct) :=
  C3_compute_and_add_tags_sound _ _ _ (by decide) (by decide) (by decide)
    (by decide)

/-- C8: `compute_and_add_tags` rejects a zero-length input — an empty row
list, or an empty limb/key list — with `InvalidArgument`. -/
theorem C8_zero_length_rejected (R : Type) [CommRing R] :
    (∀ (keys : List (Sharing R)) (σ : Nat → Fin 3 → R),
      compute_and_add_tags keys [] σ = .error .InvalidArgument) ∧
    (∀ (rows : List (List (Sharing R))) (σ : Nat → Fin 3 → R),
      compute_and_add_tags [] rows σ = .error .InvalidArgument) := by
  constructor
  · intro keys σ
    simp [compute_and_add_tags]
  · intro rows σ
    simp [compute_and_add_tags]

/-- C8 witness: the rejection at `R = Int` with a singleton key list and no
rows, and with one row and no keys. -/
theorem C8_zero_length_rejected_witness :
    compute_and_add_tags (R := Int) [⟨⟨1, 0⟩, ⟨0, 0⟩, ⟨0, 1⟩⟩] []
        (fun _ _ => 0) = .error .InvalidArgument ∧
      compute_and_add_tags (R := Int) [] [[⟨⟨1, 0⟩, ⟨0, 0⟩, ⟨0, 1⟩⟩]]
        (fun _ _ => 0) = .error .InvalidArgument :=
  ⟨(C8_zero_length_rejected Int).1 _ _, (C8_zero_length_rejected Int).2 _ _⟩

/- ------------------------------------------------------------------ -/
/- Shuffle verification: reveal_keys, compute_row_hash, h1_verify.     -/
/- ------------------------------------------------------------------ -/

/-- Modelled from the spec (section 4.G): `malicious_reveal` of a valid
replicated sharing in an honest execution returns the reconstructed value
(each helper forwards its shares and the two received copies agree). -/
def malicious_reveal {R : Type} [Add R] (x : Sharing R) : R :=
  x.reconstruct

/-- Embedding of `reveal_keys`
(ipa-core/src/protocol/ipa_prf/shuffle/malicious.rs, lines 251-268): the
MAC key shares are revealed in input order via `malicious_reveal` under
`parallel_join`, and a trailing `ONE` is appended so the key vector also
covers the tag limb. -/
def reveal_keys {R : Type} [Add R] [One R] (key_shares : List (Sharing R)) :
    List R :=
  key_shares.map malicious_reveal ++ [1]

/-- C5: `reveal_keys` returns one element more than the number of key
shares; its first elements are the `malicious_reveal` values of the key
shares in input order, and its last element is the constant `ONE`. -/
theorem C5_reveal_keys_shape {R : Type} [CommRing R]
    (key_shares : List (Sharing R)) :
    (reveal_keys key_shares).length = key_shares.length + 1 ∧
      (∀ i, i < key_shares.length →
        (reveal_keys key_shares).getD i 0 =
          malicious_reveal (key_shares.getD i Sharing.zero)) ∧
      (reveal_keys key_shares).getLast? = some 1 := by
  refine ⟨by simp [reveal_keys], ?_, ?_⟩
  · intro i hi
    have hmap : i < (key_shares.map (malicious_reveal (R := R))).length := by
      simpa using hi
    have hlen : i < (reveal_keys key_shares).length := by
      simp [reveal_keys]
      omega
    rw [List.getD_eq_getElem _ _ hlen, List.getD_eq_getElem _ _ hi]
    simp only [reveal_keys]
    rw [List.getElem_append_left hmap]
    simp
  · simp only [reveal_keys]
    rw [List.getLast?_concat]

/-- C5 witness: the theorem applied to a single key sharing of `5`, read at
index `0`. -/
theorem C5_reveal_keys_shape_witness :
    (reveal_keys (R := Int) [⟨⟨5, 0⟩, ⟨0, 0⟩, ⟨0, 5⟩⟩]).getD 0 0 =
      malicious_reveal (([⟨⟨5, 0⟩, ⟨0, 0⟩, ⟨0, 5⟩⟩] :
        List (Sharing Int)).getD 0 Sharing.zero) :=
  (C5_reveal_keys_shape [⟨⟨5, 0⟩, ⟨0, 0⟩, ⟨0, 5⟩⟩]).2.1 0 (by decide)

/-- Modelled from the spec (section 4.H): `compute_row_hash` computes for
each row the inner product of its `Gf32Bit` limbs with the revealed keys
and hashes the concatenation of the inner products.  The hash function
itself (`compute_hash`) is not under the given sources and is modelled as
the injective identity on the list of inner products. -/
def compute_row_hash {R : Type} [CommRing R] (keys : List R)
    (rows : List (List R)) : List R :=
  rows.map (fun row => innerProd row keys)

/-- Embedding of `h1_verify`
(ipa-core/src/protocol/ipa_prf/shuffle/malicious.rs, lines 67-124).
`H1` computes the hash of `x1` and of `left + right` of each output
share, and compares them — in source order — against `hash_y1` and
`hash_h3` received from `H3` (record ids 0 and 1 of `HashesH3toH1`) and
`hash_h2` received from `H2` (record id 0 of `HashH2toH1`); the received
hashes are parameters, which models an error-free network. -/
def h1_verify {R : Type} [CommRing R] [DecidableEq R] (keys : List R)
    (share_a_and_b : List (AdditiveShare (List R))) (x1 : List (List R))
    (hash_y1 hash_h3 hash_h2 : List R) : Except ProtoError Unit :=
  if compute_row_hash keys x1 ≠ hash_y1 then
    .error (.ShuffleValidationFailed .y1Inconsistent)
  else if compute_row_hash keys
      (share_a_and_b.map (fun sh => List.zipWith (· + ·) sh.left sh.right))
      ≠ hash_h3 then
    .error (.ShuffleValidationFailed .cFromH3Inconsistent)
  else if compute_row_hash keys
      (share_a_and_b.map (fun sh => List.zipWith (· + ·) sh.left sh.right))
      ≠ hash_h2 then
    .error (.ShuffleValidationFailed .cFromH2Inconsistent)
  else .ok ()

/-- C4: absent network errors, `h1_verify` succeeds exactly when all three
hash equalities hold, and a mismatch produces the `ShuffleValidationFailed`
error of the first failing check in source order (`y1`, then `C` from `H3`,
then `C` from `H2`). -/
theorem C4_h1_verify_checks {R : Type} [CommRing R] [DecidableEq R]
    (keys : List R) (share_a_and_b : List (AdditiveShare (List R)))
    (x1 : List (List R)) (hash_y1 hash_h3 hash_h2 : List R) :
    (h1_verify keys share_a_and_b x1 hash_y1 hash_h3 hash_h2 = .ok () ↔
      (compute_row_hash keys x1 = hash_y1 ∧
        compute_row_hash keys (share_a_and_b.map
          (fun sh => List.zipWith (· + ·) sh.left sh.right)) = hash_h3 ∧
        compute_row_hash keys (share_a_and_b.map
          (fun sh => List.zipWith (· + ·) sh.left sh.right)) = hash_h2)) ∧
    (compute_row_hash keys x1 ≠ hash_y1 →
      h1_verify keys share_a_and_b x1 hash_y1 hash_h3 hash_h2 =
        .error (.ShuffleValidationFailed .y1Inconsistent)) ∧
    (compute_row_hash keys x1 = hash_y1 →
      compute_row_hash keys (share_a_and_b.map
        (fun sh => List.zipWith (· + ·) sh.left sh.right)) ≠ hash_h3 →
      h1_verify keys share_a_and_b x1 hash_y1 hash_h3 hash_h2 =
        .error (.ShuffleValidationFailed .cFromH3Inconsistent)) ∧
    (compute_row_hash keys x1 = hash_y1 →
      compute_row_hash keys (share_a_and_b.map
        (fun sh => List.zipWith (· + ·) sh.left sh.right)) = hash_h3 →
      compute_row_hash keys (share_a_and_b.map
        (fun sh => List.zipWith (· + ·) sh.left sh.right)) ≠ hash_h2 →
      h1_verify keys share_a_and_b x1 hash_y1 hash_h3 hash_h2 =
        .error (.ShuffleValidationFailed .cFromH2Inconsistent)) := by
  unfold h1_verify
  split_ifs with hy1 hh3 hh2 <;> simp_all

/-- C4 witness: a concrete mismatch on the first check — `x1` hashes to the
empty list while `H3` sent `[1]` — yields the `y1` validation failure. -/
theorem C4_h1_verify_checks_witness :
    h1_verify (R := Int) [] [] [] [1] [] [] =
      .error (.ShuffleValidationFailed .y1Inconsistent) :=
  (C4_h1_verify_checks (R := Int) [] [] [] [1] [] []).2.1 (by decide)

/- ------------------------------------------------------------------ -/
/- C1: the OPRF IPA pipeline on cleartext values (spec section 4.J).   -/
/- ------------------------------------------------------------------ -/

/-- One input record of the `oprf_ipa` test fixture
(`TestRawDataRecord` in src/protocol/ipa_prf/mod.rs, tests). -/
structure TestRawDataRecord where
  timestamp : Nat
  user_id : Nat
  is_trigger_report : Bool
  breakdown_key : Nat
  trigger_value : Nat
deriving DecidableEq

/-- Trigger/source distance test against the optional attribution window
(spec 4.J step 4); `none` means no window, as in `IpaQueryConfig::no_window`. -/
def withinWindow (window : Option Nat) (srcTs trigTs : Nat) : Bool :=
  match window with
  | none => true
  | some w => trigTs - srcTs ≤ w

/-- Modelled from the spec (4.J step 4, the attribution code behind
`attribution_and_capping_and_aggregation` is not under the given sources):
walk a user's rows in timestamp order keeping the latest source row's
`(breakdown_key, timestamp)`; every trigger row within the window of that
source inherits its breakdown key, contributing
`(breakdown_key, trigger_value)`. -/
def attributeRows (window : Option Nat) :
    Option (Nat × Nat) → List TestRawDataRecord → List (Nat × Nat)
  | _, [] => []
  | last, r :: rest =>
    if r.is_trigger_report then
      match last with
      | some (bk, ts) =>
          if withinWindow window ts r.timestamp then
            (bk, r.trigger_value) :: attributeRows window last rest
          else attributeRows window last rest
      | none => attributeRows window last rest
    else attributeRows window (some (r.breakdown_key, r.timestamp)) rest

/-- Modelled from the spec (4.J step 5): the total attributed trigger value
of one user is capped at `cap`; contributions are consumed in order and the
running total saturates at the cap. -/
def capContribs (cap : Nat) : Nat → List (Nat × Nat) → List (Nat × Nat)
  | _, [] => []
  | used, (bk, v) :: rest =>
      (bk, min v (cap - used)) :: capContribs cap (used + min v (cap - used)) rest

/-- Stable sort of a user's rows by timestamp (the pipeline sorts rows and
the attribution walks them in timestamp order). -/
def sortByTimestamp (rows : List TestRawDataRecord) : List TestRawDataRecord :=
  List.insertionSort (fun a b => a.timestamp ≤ b.timestamp) rows

/-- Attributed-and-capped contributions of a single user. -/
def userContribs (cap : Nat) (window : Option Nat)
    (rs : List TestRawDataRecord) (u : Nat) : List (Nat × Nat) :=
  capContribs cap 0
    (attributeRows window none
      (sortByTimestamp (rs.filter (fun r => r.user_id = u))))

/-- Modelled from the spec (4.J): the cleartext semantics of `oprf_ipa`
(src/protocol/ipa_prf/mod.rs).  Match keys map to pseudonyms through an
injective OPRF, so rows group exactly by `user_id`; since the final
aggregation is a commutative sum per breakdown key, the order of the user
groups after the sort by pseudonym does not affect the histogram, and the
pipeline is modelled by aggregating per-user contributions directly.
`p` is the order of the output prime field (`Fp31` in scenario S6). -/
def oprf_ipa (p cap maxbk : Nat) (window : Option Nat)
    (rs : List TestRawDataRecord) : List Nat :=
  (List.range maxbk).map (fun bk =>
    ((((rs.map (fun r => r.user_id)).dedup).flatMap
        (userContribs cap window rs)).filter
      (fun c => c.1 = bk)).foldr (fun c acc => (c.2 + acc) % p) 0)

/-- The five records of scenario S6: two users, three source rows with
breakdown keys 1, 2, 1 and two trigger rows with values 5 and 2. -/
def s6Records : List TestRawDataRecord :=
  [⟨0, 12345, false, 1, 0⟩, ⟨0, 12345, false, 2, 0⟩, ⟨0, 68362, false, 1, 0⟩,
    ⟨0, 12345, true, 0, 5⟩, ⟨0, 68362, true, 0, 2⟩]

/-- C1 counterexample: on the S6 input with `per_user_credit_cap = 16` and
`max_breakdown_key = 8` the pipeline of spec 4.J does *not* reconstruct to
`[0,2,3,0,0,0,0,0]`: the cap of 16 leaves user 12345's attributed value 5
untouched. -/
theorem C1_s6_not_expected_histogram :
    oprf_ipa 31 16 8 none s6Records ≠ [0, 2, 3, 0, 0, 0, 0, 0] := by
  decide

/-- C1 (amended): on the S6 input with `per_user_credit_cap = 16`,
`max_breakdown_key = 8` and no attribution window, the pipeline returns a
histogram of length 8 that reconstructs to `[0,2,5,0,0,0,0,0]` — trigger
value 5 goes to user 12345's latest source breakdown key 2, trigger value
2 to user 68362's source breakdown key 1. -/
theorem C1_s6_histogram :
    oprf_ipa 31 16 8 none s6Records = [0, 2, 5, 0, 0, 0, 0, 0] := by
  decide

/- ------------------------------------------------------------------ -/
/- C2: the radix-sort permutation generator (spec section 4.I).        -/
/- ------------------------------------------------------------------ -/

/-- Numeric value of one bit. -/
def bitVal (b : Bool) : Nat := cond b 1 0

/-- Strict stable-sort order: row `j` comes strictly before row `i` when
sorting by `a`, i.e. `(a j, j) < (a i, i)` lexicographically. -/
def lexLt {n : Nat} (a : Fin n → Nat) (j i : Fin n) : Prop :=
  a j < a i ∨ (a j = a i ∧ j < i)

instance {n : Nat} (a : Fin n → Nat) (j i : Fin n) : Decidable (lexLt a j i) := by
  unfold lexLt
  infer_instance

/-- Rank of row `i` in the stable sort of the rows by `a`: the number of
rows that come strictly before it. -/
def lexRank {n : Nat} (a : Fin n → Nat) (i : Fin n) : Nat :=
  (Finset.univ.filter (fun j => lexLt a j i)).card

/-- Modelled from the spec (4.I step 1; bit_permutation.rs is not under the
given sources): the prefix-sum-based stable-sort indicator of one bit
column.  A zero row goes to position "number of zero rows before it"; a one
row goes to "total zero rows" plus "number of one rows before it". -/
def bit_permutation {n : Nat} (c : Fin n → Bool) (i : Fin n) : Nat :=
  if c i then
    (Finset.univ.filter (fun j => c j = false)).card +
      (Finset.univ.filter (fun j => j < i ∧ c j = true)).card
  else (Finset.univ.filter (fun j => j < i ∧ c j = false)).card

/-- Modelled from the spec (4.I step 2b; secureapplyinv.rs is not under the
given sources): `secure_apply_inv` reorders a column so that the entry of
row `j` lands at position `σ j`; position `p` therefore holds the entry of
the row that `σ` maps to `p`. -/
def applyinv {n : Nat} (c : Fin n → Bool) (σ : Fin n → Nat) (p : Fin n) : Bool :=
  decide (∃ j, σ j = p.val ∧ c j = true)

/-- Clamp a computed destination index into `Fin n` (the source works with
in-range permutation values throughout; the fallback is never taken on the
reachable inputs). -/
def toIdx {n : Nat} (i : Fin n) (v : Nat) : Fin n :=
  if h : v < n then ⟨v, h⟩ else i

/-- Embedding of the loop of `generate_permutation`
(src/protocol/sort/generate_permutation.rs, lines 95-158) after processing
bit columns `0..=b`: bit 0 yields `bit_permutation` of column 0; each
further bit reorders its column by the previous composed permutation
(`shuffle_and_reveal_permutation` followed by `secureapplyinv` — revealing
the shuffled permutation returns the same permutation in the clear),
computes its `bit_permutation`, and composes (`compose`): the new
destination of row `i` is the bit permutation applied at the old
destination of `i`. -/
def genPermUpto {n : Nat} (cols : Nat → Fin n → Bool) : Nat → Fin n → Nat
  | 0 => bit_permutation (cols 0)
  | b + 1 => fun i =>
      bit_permutation (applyinv (cols (b + 1)) (genPermUpto cols b))
        (toIdx i (genPermUpto cols b i))

/-- Embedding of `generate_permutation` for `num_bits` bit columns. -/
def generate_permutation {n : Nat} (cols : Nat → Fin n → Bool)
    (num_bits : Nat) : Fin n → Nat :=
  genPermUpto cols (num_bits - 1)

/-- Value of the low `L` bits of row `i` (bit column `t` carries bit `t`). -/
def keyVal {n : Nat} (cols : Nat → Fin n → Bool) (L : Nat) (i : Fin n) : Nat :=
  (Finset.range L).sum (fun t => bitVal (cols t i) * 2 ^ t)

/-- Apply an output permutation to the rows: row `j`'s value is written at
position `σ j` (as the sort test does with `mpc_sorted_list[σ(i)] = input[i]`). -/
def applyPermOut {n : Nat} (σ : Fin n → Nat) (key : Fin n → Nat) : List Nat :=
  (List.finRange n).foldl (fun acc j => acc.set (σ j) (key j))
    (List.replicate n 0)

theorem lexLt_irrefl {n : Nat} (a : Fin n → Nat) (i : Fin n) : ¬ lexLt a i i := by
  simp [lexLt]

theorem lexLt_trans {n : Nat} (a : Fin n → Nat) {i j k : Fin n}
    (h1 : lexLt a i j) (h2 : lexLt a j k) : lexLt a i k := by
  simp only [lexLt, Fin.lt_def] at h1 h2 ⊢
  omega

theorem lexLt_total {n : Nat} (a : Fin n → Nat) {i j : Fin n} (h : i ≠ j) :
    lexLt a i j ∨ lexLt a j i := by
  have hv : i.val ≠ j.val := fun hc => h (Fin.ext hc)
  simp only [lexLt, Fin.lt_def]
  omega

theorem lexRank_lt_of_lexLt {n : Nat} (a : Fin n → Nat) {i j : Fin n}
    (h : lexLt a i j) : lexRank a i < lexRank a j := by
  apply Finset.card_lt_card
  rw [Finset.ssubset_iff_of_subset]
  · exact ⟨i, by simp [h], by simp [lexLt_irrefl]⟩
  · intro k hk
    simp only [Finset.mem_filter, Finset.mem_univ, true_and] at hk ⊢
    exact lexLt_trans a hk h

theorem lexRank_lt_iff {n : Nat} (a : Fin n → Nat) {i j : Fin n} :
    lexRank a i < lexRank a j ↔ lexLt a i j := by
  refine ⟨fun h => ?_, lexRank_lt_of_lexLt a⟩
  by_cases hij : i = j
  · subst hij
    exact absurd h (lt_irrefl _)
  · rcases lexLt_total a hij with hlt | hlt
    · exact hlt
    · exact absurd (lexRank_lt_of_lexLt a hlt) (by omega)

theorem lexRank_inj {n : Nat} (a : Fin n → Nat) {i j : Fin n}
    (h : lexRank a i = lexRank a j) : i = j := by
  by_contra hij
  rcases lexLt_total a hij with hlt | hlt
  · exact absurd (lexRank_lt_of_lexLt a hlt) (by omega)
  · exact absurd (lexRank_lt_of_lexLt a hlt) (by omega)

theorem lexRank_lt_n {n : Nat} (a : Fin n → Nat) (i : Fin n) : lexRank a i < n := by
  have hsub : Finset.univ.filter (fun j => lexLt a j i) ⊆ Finset.univ.erase i := by
    intro k hk
    simp only [Finset.mem_filter, Finset.mem_univ, true_and] at hk
    refine Finset.mem_erase.mpr ⟨fun hc => ?_, Finset.mem_univ k⟩
    subst hc
    exact lexLt_irrefl a k hk
  have hcard := Finset.card_le_card hsub
  rw [Finset.card_erase_of_mem (Finset.mem_univ i)] at hcard
  have hn : 0 < n := i.pos
  have huniv : (Finset.univ : Finset (Fin n)).card = n := by simp
  rw [huniv] at hcard
  unfold lexRank
  omega

/-- The stable-sort rank as a function into `Fin n`. -/
def finRank {n : Nat} (a : Fin n → Nat) (i : Fin n) : Fin n :=
  ⟨lexRank a i, lexRank_lt_n a i⟩

theorem finRank_bijective {n : Nat} (a : Fin n → Nat) :
    Function.Bijective (finRank a) := by
  rw [← Finite.injective_iff_bijective]
  intro i j hij
  exact lexRank_inj a (congrArg Fin.val hij)

theorem finRank_lt_iff {n : Nat} (a : Fin n → Nat) {i j : Fin n} :
    finRank a i < finRank a j ↔ lexLt a i j := by
  rw [Fin.lt_def]
  exact lexRank_lt_iff a

theorem bit_permutation_eq_lexRank {n : Nat} (c : Fin n → Bool) (i : Fin n) :
    bit_permutation c i = lexRank (fun j => bitVal (c j)) i := by
  unfold bit_permutation lexRank
  by_cases hc : c i
  · rw [if_pos hc]
    have hsplit : Finset.univ.filter (fun j => lexLt (fun j => bitVal (c j)) j i) =
        Finset.univ.filter (fun j => c j = false) ∪
          Finset.univ.filter (fun j => j < i ∧ c j = true) := by
      rw [← Finset.filter_or]
      apply Finset.filter_congr
      intro j _
      cases hj : c j <;> simp [lexLt, bitVal, hc, hj, and_comm]
    rw [hsplit, Finset.card_union_of_disjoint]
    rw [Finset.disjoint_left]
    intro k hk1 hk2
    simp only [Finset.mem_filter, Finset.mem_univ, true_and] at hk1 hk2
    rw [hk1] at hk2
    exact Bool.false_ne_true hk2.2
  · rw [if_neg hc]
    apply congrArg
    apply Finset.filter_congr
    intro j _
    rw [Bool.not_eq_true] at hc
    cases hj : c j <;> simp [lexLt, bitVal, hc, hj, and_comm]

theorem card_filter_equiv_comp {n : Nat} (e : Fin n ≃ Fin n) (P : Fin n → Prop)
    [DecidablePred P] :
    (Finset.univ.filter (fun j => P (e j))).card = (Finset.univ.filter P).card := by
  apply Finset.card_nbij (fun j => e j)
  · intro a ha
    simp only [Finset.mem_filter, Finset.mem_univ, true_and] at ha ⊢
    exact ha
  · intro a _ b _ hab
    exact e.injective hab
  · intro b hb
    simp only [Finset.coe_filter, Finset.mem_univ, true_and, Set.mem_setOf_eq] at hb ⊢
    exact ⟨e.symm b, by simp [hb], by simp⟩

theorem applyinv_at_image {n : Nat} (c : Fin n → Bool) (σ : Fin n → Nat)
    (hinj : ∀ j k, σ j = σ k → j = k) (j : Fin n) (h : σ j < n) :
    applyinv c σ ⟨σ j, h⟩ = c j := by
  have hiff : (∃ k, σ k = σ j ∧ c k = true) ↔ c j = true := by
    constructor
    · rintro ⟨k, h1, h2⟩
      rw [← hinj k j h1]
      exact h2
    · intro hcj
      exact ⟨j, rfl, hcj⟩
  unfold applyinv
  cases hcj : c j
  · apply decide_eq_false
    rw [hiff, hcj]
    exact Bool.false_ne_true
  · apply decide_eq_true
    exact hiff.mpr hcj

theorem keyVal_succ {n : Nat} (cols : Nat → Fin n → Bool) (b : Nat) (i : Fin n) :
    keyVal cols (b + 1) i = keyVal cols b i + bitVal (cols b i) * 2 ^ b :=
  Finset.sum_range_succ _ _

theorem keyVal_lt {n : Nat} (cols : Nat → Fin n → Bool) (i : Fin n) :
    ∀ b, keyVal cols b i < 2 ^ b := by
  intro b
  induction b with
  | zero => simp [keyVal]
  | succ b ih =>
    rw [keyVal_succ, pow_succ]
    have hbit : bitVal (cols b i) ≤ 1 := by cases cols b i <;> simp [bitVal]
    have hmul : bitVal (cols b i) * 2 ^ b ≤ 1 * 2 ^ b :=
      Nat.mul_le_mul_right _ hbit
    omega

theorem lex_extend_arith (M x y bj bi : Nat) (p : Prop) (hx : x < M) (hy : y < M)
    (hbj : bj ≤ 1) (hbi : bi ≤ 1) :
    (x + bj * M < y + bi * M ∨ (x + bj * M = y + bi * M ∧ p)) ↔
      (bj < bi ∨ (bj = bi ∧ (x < y ∨ (x = y ∧ p)))) := by
  interval_cases bj <;> interval_cases bi
  · simp
  · exact iff_of_true (Or.inl (by omega)) (Or.inl (by omega))
  · exact iff_of_false (by rintro (h | ⟨h1, h2⟩) <;> omega)
      (by rintro (h | ⟨h1, h2⟩) <;> omega)
  · constructor
    · rintro (h | ⟨h1, h2⟩)
      · exact Or.inr ⟨rfl, Or.inl (by omega)⟩
      · exact Or.inr ⟨rfl, Or.inr ⟨by omega, h2⟩⟩
    · rintro (h | ⟨-, h | ⟨h1, h2⟩⟩)
      · omega
      · exact Or.inl (by omega)
      · exact Or.inr ⟨by omega, h2⟩

theorem lexRank_reindex {n : Nat} (A : Fin n → Nat) (e : Fin n ≃ Fin n) (i : Fin n) :
    lexRank A (e i) = (Finset.univ.filter (fun j => lexLt A (e j) (e i))).card := by
  unfold lexRank
  rw [← card_filter_equiv_comp e (fun j => lexLt A j (e i))]

/-- Invariant of the radix-sort loop: after processing bit columns
`0..=b`, the composed permutation is the stable-sort rank of the value of
the low `b + 1` bits. -/
theorem genPermUpto_eq {n : Nat} (cols : Nat → Fin n → Bool) :
    ∀ b, genPermUpto cols b = fun i => lexRank (keyVal cols (b + 1)) i := by
  intro b
  induction b with
  | zero =>
    funext i
    show bit_permutation (cols 0) i = _
    rw [bit_permutation_eq_lexRank]
    congr 1
    funext j
    simp [keyVal, bitVal]
  | succ b ih =>
    funext i
    show bit_permutation (applyinv (cols (b + 1)) (genPermUpto cols b))
        (toIdx i (genPermUpto cols b i)) = _
    rw [ih]
    have hlt : ∀ j : Fin n, lexRank (keyVal cols (b + 1)) j < n :=
      lexRank_lt_n _
    have hinj : ∀ j k : Fin n, lexRank (keyVal cols (b + 1)) j =
        lexRank (keyVal cols (b + 1)) k → j = k :=
      fun j k h => lexRank_inj _ h
    have htoIdx : toIdx i ((fun i => lexRank (keyVal cols (b + 1)) i) i) =
        finRank (keyVal cols (b + 1)) i := by
      unfold toIdx finRank
      rw [dif_pos (hlt i)]
    rw [htoIdx, bit_permutation_eq_lexRank]
    rw [show finRank (keyVal cols (b + 1)) i =
        (Equiv.ofBijective _ (finRank_bijective (keyVal cols (b + 1)))) i from rfl,
      lexRank_reindex]
    show _ = (Finset.univ.filter
      (fun j => lexLt (keyVal cols (b + 1 + 1)) j i)).card
    apply congrArg Finset.card
    apply Finset.filter_congr
    intro j _
    have happly : ∀ k : Fin n,
        applyinv (cols (b + 1)) (fun t => lexRank (keyVal cols (b + 1)) t)
          (finRank (keyVal cols (b + 1)) k) = cols (b + 1) k := by
      intro k
      exact applyinv_at_image (cols (b + 1)) _ hinj k (hlt k)
    show lexLt _ ((Equiv.ofBijective _ _) j) ((Equiv.ofBijective _ _) i) ↔ _
    rw [show ((Equiv.ofBijective _ (finRank_bijective (keyVal cols (b + 1)))) j)
        = finRank (keyVal cols (b + 1)) j from rfl,
      show ((Equiv.ofBijective _ (finRank_bijective (keyVal cols (b + 1)))) i)
        = finRank (keyVal cols (b + 1)) i from rfl]
    rw [lexLt, happly j, happly i, finRank_lt_iff]
    conv_rhs => rw [lexLt]
    rw [keyVal_succ cols (b + 1) j, keyVal_succ cols (b + 1) i]
    exact (lex_extend_arith (2 ^ (b + 1)) _ _ _ _ _
      (keyVal_lt cols j (b + 1)) (keyVal_lt cols i (b + 1))
      (by cases cols (b + 1) j <;> simp [bitVal])
      (by cases cols (b + 1) i <;> simp [bitVal])).symm

theorem foldl_set_length {n : Nat} (σ : Fin n → Nat) (key : Fin n → Nat) :
    ∀ (l : List (Fin n)) (acc : List Nat),
      (l.foldl (fun a j => a.set (σ j) (key j)) acc).length = acc.length
  | [], _ => rfl
  | a :: t, acc => by
    rw [List.foldl_cons, foldl_set_length σ key t, List.length_set]

theorem foldl_set_untouched {n : Nat} (σ : Fin n → Nat) (key : Fin n → Nat) :
    ∀ (l : List (Fin n)) (acc : List Nat) (p : Nat), (∀ j ∈ l, σ j ≠ p) →
      (l.foldl (fun a j => a.set (σ j) (key j)) acc).getD p 0 = acc.getD p 0
  | [], _, _, _ => rfl
  | a :: t, acc, p, hp => by
    rw [List.foldl_cons,
      foldl_set_untouched σ key t _ p (fun j hj => hp j (List.mem_cons_of_mem a hj))]
    have hne : σ a ≠ p := hp a (List.mem_cons_self a t)
    simp [List.getD_eq_getElem?_getD, List.getElem?_set_ne hne]

theorem foldl_set_hit {n : Nat} (σ : Fin n → Nat) (key : Fin n → Nat)
    (hinj : ∀ j k, σ j = σ k → j = k) :
    ∀ (l : List (Fin n)) (acc : List Nat), l.Nodup → ∀ j ∈ l, σ j < acc.length →
      (l.foldl (fun a j => a.set (σ j) (key j)) acc).getD (σ j) 0 = key j
  | [], _, _, j, hj, _ => absurd hj (List.not_mem_nil j)
  | a :: t, acc, hnd, j, hj, hb => by
    rw [List.foldl_cons]
    rcases List.mem_cons.mp hj with rfl | hjt
    · have hnotin : ∀ k ∈ t, σ k ≠ σ j := by
        intro k hk hck
        rw [hinj k j hck] at hk
        exact (List.nodup_cons.mp hnd).1 hk
      rw [foldl_set_untouched σ key t _ (σ j) hnotin]
      simp [List.getD_eq_getElem?_getD, List.getElem?_set_self hb]
    · exact foldl_set_hit σ key hinj t _ (List.nodup_cons.mp hnd).2 j hjt
        (by rw [List.length_set]; exact hb)

theorem applyPermOut_length {n : Nat} (σ : Fin n → Nat) (key : Fin n → Nat) :
    (applyPermOut σ key).length = n := by
  unfold applyPermOut
  rw [foldl_set_length, List.length_replicate]

theorem applyPermOut_getD {n : Nat} (σ : Fin n → Nat) (key : Fin n → Nat)
    (hinj : ∀ j k, σ j = σ k → j = k) (hlt : ∀ j, σ j < n) (j : Fin n) :
    (applyPermOut σ key).getD (σ j) 0 = key j := by
  unfold applyPermOut
  exact foldl_set_hit σ key hinj (List.finRange n) _ (List.nodup_finRange n)
    j (List.mem_finRange j) (by rw [List.length_replicate]; exact hlt j)

/-- Applying the stable-sort rank permutation of `a` to the values of `a`
yields exactly the (stable) insertion sort of the value list. -/
theorem applyPermOut_lexRank_eq_sort {n : Nat} (a : Fin n → Nat) :
    applyPermOut (fun i => lexRank a i) a =
      List.insertionSort (fun u v => u ≤ v) (List.ofFn a) := by
  have hinj : ∀ j k : Fin n, lexRank a j = lexRank a k → j = k :=
    fun j k h => lexRank_inj a h
  have hlt : ∀ j : Fin n, lexRank a j < n := lexRank_lt_n a
  have hbij := finRank_bijective a
  set e : Fin n ≃ Fin n := Equiv.ofBijective _ hbij with he
  have hsymm : ∀ p : Fin n, lexRank a (e.symm p) = p.val := by
    intro p
    have : e (e.symm p) = p := e.apply_symm_apply p
    have hval := congrArg Fin.val this
    exact hval
  have hout : applyPermOut (fun i => lexRank a i) a =
      List.ofFn (fun p => a (e.symm p)) := by
    apply List.ext_getElem
    · rw [applyPermOut_length, List.length_ofFn]
    · intro p h1 h2
      have hp : p < n := by
        rw [applyPermOut_length] at h1
        exact h1
      rw [List.getElem_ofFn]
      rw [← List.getD_eq_getElem _ 0 h1]
      have hidx : p = lexRank a (e.symm ⟨p, hp⟩) := (hsymm ⟨p, hp⟩).symm
      conv_lhs => rw [hidx]
      exact applyPermOut_getD _ a hinj hlt (e.symm ⟨p, hp⟩)
  have hsorted : (List.ofFn (fun p => a (e.symm p))).Sorted (· ≤ ·) := by
    rw [List.Sorted, List.pairwise_ofFn]
    intro p q hpq
    have hne : e.symm p ≠ e.symm q := fun hc => by
      have hpq' : p = q := e.symm.injective hc
      rw [hpq'] at hpq
      exact lt_irrefl q hpq
    have hr : finRank a (e.symm p) < finRank a (e.symm q) := by
      rw [Fin.lt_def]
      change lexRank a (e.symm p) < lexRank a (e.symm q)
      rw [hsymm p, hsymm q]
      exact hpq
    rcases (finRank_lt_iff a).mp hr with h | ⟨h, _⟩
    · exact le_of_lt h
    · exact le_of_eq h
  have hperm : (List.ofFn (fun p => a (e.symm p))).Perm (List.ofFn a) := by
    rw [List.ofFn_eq_map, List.ofFn_eq_map]
    have hmm : List.map (fun p => a (e.symm p)) (List.finRange n) =
        List.map a (List.map (fun p => e.symm p) (List.finRange n)) := by
      rw [List.map_map]
      rfl
    rw [hmm]
    apply List.Perm.map
    apply List.perm_of_nodup_nodup_toFinset_eq
    · exact (List.nodup_finRange n).map e.symm.injective
    · exact List.nodup_finRange n
    · ext x
      simp [List.mem_toFinset]
      exact ⟨e x, by simp⟩
  rw [hout]
  exact List.eq_of_perm_of_sorted
    (hperm.trans (List.perm_insertionSort _ _).symm) hsorted
    (List.sorted_insertionSort _ _)

/-- C2: for every input of `L` bit columns, writing each row's key at the
position assigned by `generate_permutation` yields the ascending, stably
sorted sequence of the keys: it equals the (insertion) sort of the input
list. -/
theorem C2_generate_permutation_sorts {n : Nat} (cols : Nat → Fin n → Bool)
    (L : Nat) (hL : 0 < L) :
    applyPermOut (generate_permutation cols L) (keyVal cols L) =
      List.insertionSort (fun u v => u ≤ v) (List.ofFn (keyVal cols L)) := by
  have hgen : generate_permutation cols L = fun i => lexRank (keyVal cols L) i := by
    unfold generate_permutation
    rw [genPermUpto_eq]
    rw [Nat.sub_add_cancel hL]
  rw [hgen]
  exact applyPermOut_lexRank_eq_sort (keyVal cols L)

/-- Five concrete 64-bit match keys for the C2 witness (scenario S5 uses 5
random 64-bit match keys). -/
def s5MatchKeys (i : Fin 5) : Nat :=
  [13547409487589231758, 592, 18446744073709551615, 3,
    9832749832749832].getD i.val 0

/-- Bit columns of the five concrete match keys. -/
def s5Cols (t : Nat) (i : Fin 5) : Bool := Nat.testBit (s5MatchKeys i) t

/-- C2 witness: the sort theorem applied to the five concrete 64-bit match
keys. -/
theorem C2_generate_permutation_sorts_witness :
    0 < 64 ∧
      applyPermOut (generate_permutation s5Cols 64) (keyVal s5Cols 64) =
        List.insertionSort (fun u v => u ≤ v) (List.ofFn (keyVal s5Cols 64)) :=
  ⟨by decide, C2_generate_permutation_sorts s5Cols 64 (by decide)⟩

/- ------------------------------------------------------------------ -/
/- C10: extended binary GCD and modular inverse                        -/
/- (src/helpers/prf_compute/multiplicative_inverse.rs).                -/
/- ------------------------------------------------------------------ -/

/-- Trailing-zero count with explicit fuel (the value itself bounds the
number of halvings). -/
def countTwosAux : Nat → Nat → Nat
  | 0, _ => 0
  | f + 1, x => if x % 2 = 0 ∧ x ≠ 0 then countTwosAux f (x / 2) + 1 else 0

/-- Embedding of `count_twos_multiple`: `trailing_zeros().unwrap_or(0)`,
which is 0 for the value 0. -/
def count_twos_multiple (x : Nat) : Nat := countTwosAux x x

/-- Common power of two removed from both inputs at the start of
`extended_binary_gcd`. -/
def ebShift (m n : Nat) : Nat :=
  min (count_twos_multiple m) (count_twos_multiple n)

/-- One iteration of the `while u.is_even()` body of `extended_binary_gcd`:
halve `u`; halve the Bezout coefficients if both are even, else shift them
by `y` and `-x` first (`BigInt >> 1` rounds toward minus infinity, as does
`Int` division by 2; on the branch taken the divisions are exact). -/
def halveStep (x y : Nat) (u : Nat) (a b : Int) : Nat × Int × Int :=
  if a % 2 = 0 ∧ b % 2 = 0 then (u / 2, a / 2, b / 2)
  else (u / 2, (a + y) / 2, (b - x) / 2)

/-- The `while u.is_even()` loop with fuel.  The `u ≠ 0` guard only cuts
the source's divergence at `u = 0`, a state the algorithm never reaches
(the loop is entered with `u ≥ 1` throughout). -/
def halveLoop (x y : Nat) : Nat → Nat → Int → Int → Nat × Int × Int
  | 0, u, a, b => (u, a, b)
  | f + 1, u, a, b =>
    if u % 2 = 0 ∧ u ≠ 0 then
      halveLoop x y f (halveStep x y u a b).1 (halveStep x y u a b).2.1
        (halveStep x y u a b).2.2
    else (u, a, b)

/-- The outer `loop` of `extended_binary_gcd` with fuel: halve `u` and `v`
to odd, subtract the smaller from the larger together with the Bezout
coefficients, and return `(c, d, v)` once `u` reaches 0.  `u + v` strictly
decreases, so `u + v` is sufficient fuel; `none` is the (unreachable) fuel
exhaustion. -/
def outerLoop (x y : Nat) : Nat → Nat → Int → Int → Nat → Int → Int →
    Option (Int × Int × Nat)
  | 0, _, _, _, _, _, _ => none
  | f + 1, u, a, b, v, c, d =>
    if (halveLoop x y v v c d).1 ≤ (halveLoop x y u u a b).1 then
      if (halveLoop x y u u a b).1 - (halveLoop x y v v c d).1 = 0 then
        some ((halveLoop x y v v c d).2.1, (halveLoop x y v v c d).2.2,
          (halveLoop x y v v c d).1)
      else
        outerLoop x y f ((halveLoop x y u u a b).1 - (halveLoop x y v v c d).1)
          ((halveLoop x y u u a b).2.1 - (halveLoop x y v v c d).2.1)
          ((halveLoop x y u u a b).2.2 - (halveLoop x y v v c d).2.2)
          (halveLoop x y v v c d).1 (halveLoop x y v v c d).2.1
          (halveLoop x y v v c d).2.2
    else
      if (halveLoop x y u u a b).1 = 0 then
        some ((halveLoop x y v v c d).2.1 - (halveLoop x y u u a b).2.1,
          (halveLoop x y v v c d).2.2 - (halveLoop x y u u a b).2.2,
          (halveLoop x y v v c d).1 - (halveLoop x y u u a b).1)
      else
        outerLoop x y f (halveLoop x y u u a b).1 (halveLoop x y u u a b).2.1
          (halveLoop x y u u a b).2.2
          ((halveLoop x y v v c d).1 - (halveLoop x y u u a b).1)
          ((halveLoop x y v v c d).2.1 - (halveLoop x y u u a b).2.1)
          ((halveLoop x y v v c d).2.2 - (halveLoop x y u u a b).2.2)

/-- Embedding of `extended_binary_gcd`
(src/helpers/prf_compute/multiplicative_inverse.rs, lines 7-75): strip the
common power of two, run the binary-GCD loop from `u = x, (a,b) = (1,0)`
and `v = y, (c,d) = (0,1)`, and scale the returned gcd back by the common
power of two.  The `none` fallback is unreachable for nonzero inputs. -/
def extended_binary_gcd (m n : Nat) : Int × Int × Nat :=
  match outerLoop (m / 2 ^ ebShift m n) (n / 2 ^ ebShift m n)
      (m / 2 ^ ebShift m n + n / 2 ^ ebShift m n)
      (m / 2 ^ ebShift m n) 1 0 (n / 2 ^ ebShift m n) 0 1 with
  | some (c, d, v) => (c, d, v * 2 ^ ebShift m n)
  | none => (0, 0, 0)

/-- The `while a.is_negative() { a += n }` loop of `mod_inverse`, with
fuel; `a.natAbs` is sufficient fuel for `n ≥ 1`. -/
def addUntilNonneg : Nat → Int → Int → Int
  | 0, a, _ => a
  | f + 1, a, nn => if a < 0 then addUntilNonneg f (a + nn) nn else a

/-- Embedding of `mod_inverse`
(src/helpers/prf_compute/multiplicative_inverse.rs, lines 85-104): `None`
unless the gcd is one; otherwise normalize the first Bezout coefficient
into `[0, n)` — by repeatedly adding `n` when negative, by `% n` otherwise
(for a nonnegative dividend the truncated `%` of `BigInt` agrees with
`Int.emod`). -/
def mod_inverse (m n : Nat) : Option Int :=
  if (extended_binary_gcd m n).2.2 ≠ 1 then none
  else if (extended_binary_gcd m n).1 < 0 then
    some (addUntilNonneg (extended_binary_gcd m n).1.natAbs
      (extended_binary_gcd m n).1 n)
  else some ((extended_binary_gcd m n).1 % n)

theorem countTwosAux_spec :
    ∀ (f x : Nat), x ≠ 0 → x ≤ f →
      2 ^ countTwosAux f x ∣ x ∧ x / 2 ^ countTwosAux f x % 2 = 1
  | 0, x, hx, hf => absurd (Nat.le_zero.mp hf) hx
  | f + 1, x, hx, hf => by
    by_cases hg : x % 2 = 0 ∧ x ≠ 0
    · have hx2 : x / 2 ≠ 0 := by omega
      have hxf : x / 2 ≤ f := by omega
      obtain ⟨hdvd, hodd⟩ := countTwosAux_spec f (x / 2) hx2 hxf
      obtain ⟨k, hk⟩ := hdvd
      have hxeq : x = 2 * (x / 2) := by omega
      simp only [countTwosAux, if_pos hg]
      set c := countTwosAux f (x / 2) with hc
      have hpow : x = 2 ^ (c + 1) * k := by
        calc x = 2 * (x / 2) := hxeq
          _ = 2 * (2 ^ c * k) := by rw [hk]
          _ = 2 ^ (c + 1) * k := by rw [pow_succ]; ring
      refine ⟨⟨k, hpow⟩, ?_⟩
      rw [pow_succ, mul_comm (2 ^ c) 2, ← Nat.div_div_eq_div_mul]
      exact hodd
    · simp only [countTwosAux, if_neg hg]
      have : x % 2 = 1 := by omega
      simp [this]

theorem ebShift_spec (m n : Nat) (hm : m ≠ 0) (hn : n ≠ 0) :
    2 ^ ebShift m n ∣ m ∧ 2 ^ ebShift m n ∣ n ∧
      ¬(2 ∣ m / 2 ^ ebShift m n ∧ 2 ∣ n / 2 ^ ebShift m n) := by
  obtain ⟨hdm, hom⟩ := countTwosAux_spec m m hm le_rfl
  obtain ⟨hdn, hon⟩ := countTwosAux_spec n n hn le_rfl
  have h1 : 2 ^ ebShift m n ∣ m :=
    dvd_trans (pow_dvd_pow 2 (min_le_left _ _)) hdm
  have h2 : 2 ^ ebShift m n ∣ n :=
    dvd_trans (pow_dvd_pow 2 (min_le_right _ _)) hdn
  refine ⟨h1, h2, ?_⟩
  rcases min_cases (count_twos_multiple m) (count_twos_multiple n) with
    ⟨hmin, _⟩ | ⟨hmin, _⟩
  · intro hcon
    have : m / 2 ^ ebShift m n % 2 = 1 := by
      unfold ebShift
      rw [hmin]
      exact hom
    omega
  · intro hcon
    have : n / 2 ^ ebShift m n % 2 = 1 := by
      unfold ebShift
      rw [hmin]
      exact hon
    omega

theorem parity_step (x y u : Nat) (a b : Int)
    (hxy : ¬(2 ∣ x ∧ 2 ∣ y)) (hu : u % 2 = 0)
    (heq : a * x + b * y = (u : Int)) (hab : ¬(a % 2 = 0 ∧ b % 2 = 0)) :
    (a + y) % 2 = 0 ∧ (b - x) % 2 = 0 := by
  have hxy2 : ¬((x : Int) % 2 = 0 ∧ (y : Int) % 2 = 0) := by omega
  have hu2 : (u : Int) % 2 = 0 := by omega
  have hE : (a * x + b * y) % 2 = (u : Int) % 2 := by rw [heq]
  rw [Int.add_emod, Int.mul_emod a, Int.mul_emod b, hu2] at hE
  rcases Int.emod_two_eq a with ha | ha <;>
    rcases Int.emod_two_eq b with hb | hb <;>
    rcases Int.emod_two_eq (x : Int) with hx | hx <;>
    rcases Int.emod_two_eq (y : Int) with hy | hy <;>
    rw [ha, hb, hx, hy] at hE <;> norm_num at hE <;> omega

theorem halveLoop_spec (x y : Nat) (hxy : ¬(2 ∣ x ∧ 2 ∣ y)) :
    ∀ (f u : Nat) (a b : Int), u ≠ 0 → u ≤ f → a * x + b * y = (u : Int) →
      (halveLoop x y f u a b).1 ≠ 0 ∧ (halveLoop x y f u a b).1 % 2 = 1 ∧
        (halveLoop x y f u a b).2.1 * x + (halveLoop x y f u a b).2.2 * y =
          ((halveLoop x y f u a b).1 : Int) ∧
        ∃ k, u = 2 ^ k * (halveLoop x y f u a b).1
  | 0, u, a, b, hu, hf, _ => absurd (Nat.le_zero.mp hf) hu
  | f + 1, u, a, b, hu, hf, heq => by
    by_cases hg : u % 2 = 0 ∧ u ≠ 0
    · have hu2 : u / 2 ≠ 0 := by omega
      have huf : u / 2 ≤ f := by omega
      have hueq : (u : Int) = 2 * ((u / 2 : Nat) : Int) := by omega
      simp only [halveLoop, if_pos hg]
      by_cases hab : a % 2 = 0 ∧ b % 2 = 0
      · simp only [halveStep, if_pos hab]
        have hbez : (a / 2) * x + (b / 2) * y = ((u / 2 : Nat) : Int) := by
          have e1 : (2 : Int) * (a / 2) = a := by omega
          have e2 : (2 : Int) * (b / 2) = b := by omega
          have key : (2 : Int) * ((a / 2) * x + (b / 2) * y) =
              2 * ((u / 2 : Nat) : Int) := by
            calc (2 : Int) * ((a / 2) * x + (b / 2) * y)
                = (2 * (a / 2)) * x + (2 * (b / 2)) * y := by ring
              _ = a * x + b * y := by rw [e1, e2]
              _ = (u : Int) := heq
              _ = 2 * ((u / 2 : Nat) : Int) := hueq
          exact mul_left_cancel₀ two_ne_zero key
        obtain ⟨h1, h2, h3, k, hk⟩ :=
          halveLoop_spec x y hxy f (u / 2) (a / 2) (b / 2) hu2 huf hbez
        refine ⟨h1, h2, h3, k + 1, ?_⟩
        calc u = 2 * (u / 2) := by omega
          _ = 2 * (2 ^ k * (halveLoop x y f (u / 2) (a / 2) (b / 2)).1) := by
              rw [← hk]
          _ = 2 ^ (k + 1) * (halveLoop x y f (u / 2) (a / 2) (b / 2)).1 := by
              rw [pow_succ]; ring
      · simp only [halveStep, if_neg hab]
        obtain ⟨hp1, hp2⟩ := parity_step x y u a b hxy hg.1 heq hab
        have hbez : ((a + y) / 2) * x + ((b - x) / 2) * y =
            ((u / 2 : Nat) : Int) := by
          have e1 : (2 : Int) * ((a + y) / 2) = a + y := by omega
          have e2 : (2 : Int) * ((b - x) / 2) = b - x := by omega
          have key : (2 : Int) * (((a + y) / 2) * x + ((b - x) / 2) * y) =
              2 * ((u / 2 : Nat) : Int) := by
            calc (2 : Int) * (((a + y) / 2) * x + ((b - x) / 2) * y)
                = (2 * ((a + y) / 2)) * x + (2 * ((b - x) / 2)) * y := by ring
              _ = (a + y) * x + (b - x) * y := by rw [e1, e2]
              _ = a * x + b * y := by ring
              _ = (u : Int) := heq
              _ = 2 * ((u / 2 : Nat) : Int) := hueq
          exact mul_left_cancel₀ two_ne_zero key
        obtain ⟨h1, h2, h3, k, hk⟩ :=
          halveLoop_spec x y hxy f (u / 2) ((a + y) / 2) ((b - x) / 2) hu2 huf hbez
        refine ⟨h1, h2, h3, k + 1, ?_⟩
        calc u = 2 * (u / 2) := by omega
          _ = 2 * (2 ^ k *
              (halveLoop x y f (u / 2) ((a + y) / 2) ((b - x) / 2)).1) := by
              rw [← hk]
          _ = 2 ^ (k + 1) *
              (halveLoop x y f (u / 2) ((a + y) / 2) ((b - x) / 2)).1 := by
              rw [pow_succ]; ring
    · simp only [halveLoop, if_neg hg]
      refine ⟨hu, by omega, heq, 0, by simp⟩

theorem gcd_pow_two_mul_cancel (k s w : Nat) (hw : w % 2 = 1) :
    Nat.gcd (2 ^ k * s) w = Nat.gcd s w :=
  Nat.Coprime.gcd_mul_left_cancel s
    (Nat.Coprime.pow_left k (Nat.coprime_two_left.mpr (Nat.odd_iff.mpr hw)))

theorem outerLoop_spec (x y : Nat) (hxy : ¬(2 ∣ x ∧ 2 ∣ y)) :
    ∀ (f u : Nat) (a b : Int) (v : Nat) (c d : Int),
      u ≠ 0 → v ≠ 0 → ¬(2 ∣ u ∧ 2 ∣ v) → u + v ≤ f →
      a * x + b * y = (u : Int) → c * x + d * y = (v : Int) →
      Nat.gcd u v = Nat.gcd x y →
      ∃ c' d' g, outerLoop x y f u a b v c d = some (c', d', g) ∧
        c' * x + d' * y = (g : Int) ∧ g = Nat.gcd x y
  | 0, u, a, b, v, c, d, hu, hv, _, hf, _, _, _ => by omega
  | f + 1, u, a, b, v, c, d, hu, hv, hnbe, hf, hequ, heqv, hgcd => by
    obtain ⟨hu1ne, hu1odd, hbez1, k1, hk1⟩ :=
      halveLoop_spec x y hxy u u a b hu le_rfl hequ
    obtain ⟨hv1ne, hv1odd, hbez2, k2, hk2⟩ :=
      halveLoop_spec x y hxy v v c d hv le_rfl heqv
    have hu1dvd : (halveLoop x y u u a b).1 ∣ u :=
      ⟨2 ^ k1, hk1.trans (mul_comm _ _)⟩
    have hv1dvd : (halveLoop x y v v c d).1 ∣ v :=
      ⟨2 ^ k2, hk2.trans (mul_comm _ _)⟩
    have hu1le : (halveLoop x y u u a b).1 ≤ u :=
      Nat.le_of_dvd (Nat.pos_of_ne_zero hu) hu1dvd
    have hv1le : (halveLoop x y v v c d).1 ≤ v :=
      Nat.le_of_dvd (Nat.pos_of_ne_zero hv) hv1dvd
    have hstep2 : Nat.gcd (halveLoop x y u u a b).1 v =
        Nat.gcd (halveLoop x y u u a b).1 (halveLoop x y v v c d).1 := by
      conv_lhs => rw [Nat.gcd_comm, hk2]
      rw [gcd_pow_two_mul_cancel _ _ _ hu1odd]
      exact Nat.gcd_comm _ _
    have hstep1 : Nat.gcd u v = Nat.gcd (halveLoop x y u u a b).1 v := by
      by_cases hk10 : k1 = 0
      · conv_lhs => rw [hk1]
        rw [hk10, pow_zero, one_mul]
      · have h2u : 2 ∣ u := by
          rw [hk1]
          exact Dvd.dvd.mul_right (dvd_pow_self 2 hk10) _
        have hvodd : v % 2 = 1 := by
          rcases Nat.even_or_odd v with hev | hod
          · exact absurd ⟨h2u, hev.two_dvd⟩ hnbe
          · exact Nat.odd_iff.mp hod
        conv_lhs => rw [hk1]
        rw [gcd_pow_two_mul_cancel _ _ _ hvodd]
    have hgcd1 : Nat.gcd (halveLoop x y u u a b).1 (halveLoop x y v v c d).1 =
        Nat.gcd x y := by
      rw [← hstep2, ← hstep1, hgcd]
    by_cases hle : (halveLoop x y v v c d).1 ≤ (halveLoop x y u u a b).1
    · by_cases hz : (halveLoop x y u u a b).1 - (halveLoop x y v v c d).1 = 0
      · refine ⟨(halveLoop x y v v c d).2.1, (halveLoop x y v v c d).2.2,
          (halveLoop x y v v c d).1, ?_, hbez2, ?_⟩
        · simp only [outerLoop, if_pos hle, if_pos hz]
        · have heq : (halveLoop x y u u a b).1 = (halveLoop x y v v c d).1 := by
            omega
          rw [← hgcd1, heq, Nat.gcd_self]
      · have hz' : (halveLoop x y u u a b).1 - (halveLoop x y v v c d).1 ≠ 0 := hz
        have hbezsub : ((halveLoop x y u u a b).2.1 - (halveLoop x y v v c d).2.1)
            * x + ((halveLoop x y u u a b).2.2 - (halveLoop x y v v c d).2.2) * y
            = (((halveLoop x y u u a b).1 - (halveLoop x y v v c d).1 : Nat) :
              Int) := by
          rw [Nat.cast_sub hle]
          linear_combination hbez1 - hbez2
        have hgcdsub : Nat.gcd
            ((halveLoop x y u u a b).1 - (halveLoop x y v v c d).1)
            (halveLoop x y v v c d).1 = Nat.gcd x y := by
          rw [Nat.gcd_sub_self_left hle, hgcd1]
        obtain ⟨c', d', g, hout, hb, hg⟩ := outerLoop_spec x y hxy f
          ((halveLoop x y u u a b).1 - (halveLoop x y v v c d).1)
          ((halveLoop x y u u a b).2.1 - (halveLoop x y v v c d).2.1)
          ((halveLoop x y u u a b).2.2 - (halveLoop x y v v c d).2.2)
          (halveLoop x y v v c d).1 (halveLoop x y v v c d).2.1
          (halveLoop x y v v c d).2.2
          hz' hv1ne (by omega) (by omega) hbezsub hbez2 hgcdsub
        refine ⟨c', d', g, ?_, hb, hg⟩
        rw [outerLoop, if_pos hle, if_neg hz]
        exact hout
    · have hz : (halveLoop x y u u a b).1 ≠ 0 := hu1ne
      have hbezsub : ((halveLoop x y v v c d).2.1 - (halveLoop x y u u a b).2.1)
          * x + ((halveLoop x y v v c d).2.2 - (halveLoop x y u u a b).2.2) * y
          = (((halveLoop x y v v c d).1 - (halveLoop x y u u a b).1 : Nat) :
            Int) := by
        rw [Nat.cast_sub (by omega)]
        linear_combination hbez2 - hbez1
      have hgcdsub : Nat.gcd (halveLoop x y u u a b).1
          ((halveLoop x y v v c d).1 - (halveLoop x y u u a b).1) =
          Nat.gcd x y := by
        rw [Nat.gcd_comm, Nat.gcd_sub_self_left (by omega), Nat.gcd_comm, hgcd1]
      obtain ⟨c', d', g, hout, hb, hg⟩ := outerLoop_spec x y hxy f
        (halveLoop x y u u a b).1 (halveLoop x y u u a b).2.1
        (halveLoop x y u u a b).2.2
        ((halveLoop x y v v c d).1 - (halveLoop x y u u a b).1)
        ((halveLoop x y v v c d).2.1 - (halveLoop x y u u a b).2.1)
        ((halveLoop x y v v c d).2.2 - (halveLoop x y u u a b).2.2)
        hu1ne (by omega) (by omega) (by omega) hbez1 hbezsub hgcdsub
      refine ⟨c', d', g, ?_, hb, hg⟩
      rw [outerLoop, if_neg hle, if_neg hz]
      exact hout

theorem extended_binary_gcd_eq (m n : Nat) (c' d' : Int) (g : Nat)
    (hout : outerLoop (m / 2 ^ ebShift m n) (n / 2 ^ ebShift m n)
      (m / 2 ^ ebShift m n + n / 2 ^ ebShift m n) (m / 2 ^ ebShift m n) 1 0
      (n / 2 ^ ebShift m n) 0 1 = some (c', d', g)) :
    extended_binary_gcd m n = (c', d', g * 2 ^ ebShift m n) := by
  unfold extended_binary_gcd
  rw [hout]

/-- Bezout identity and gcd correctness of `extended_binary_gcd` for
nonzero inputs. -/
theorem extended_binary_gcd_spec (m n : Nat) (hm : m ≠ 0) (hn : n ≠ 0) :
    ((extended_binary_gcd m n).1 * m + (extended_binary_gcd m n).2.1 * n :
      Int) = ((extended_binary_gcd m n).2.2 : Int) ∧
    (extended_binary_gcd m n).2.2 = Nat.gcd m n := by
  obtain ⟨hdm, hdn, hnbe⟩ := ebShift_spec m n hm hn
  have hxm : m = 2 ^ ebShift m n * (m / 2 ^ ebShift m n) :=
    (Nat.mul_div_cancel' hdm).symm
  have hyn : n = 2 ^ ebShift m n * (n / 2 ^ ebShift m n) :=
    (Nat.mul_div_cancel' hdn).symm
  have hx0 : m / 2 ^ ebShift m n ≠ 0 := by
    intro h
    rw [h, mul_zero] at hxm
    exact hm hxm
  have hy0 : n / 2 ^ ebShift m n ≠ 0 := by
    intro h
    rw [h, mul_zero] at hyn
    exact hn hyn
  obtain ⟨c', d', g, hout, hbez, hg⟩ := outerLoop_spec
    (m / 2 ^ ebShift m n) (n / 2 ^ ebShift m n) hnbe
    (m / 2 ^ ebShift m n + n / 2 ^ ebShift m n)
    (m / 2 ^ ebShift m n) 1 0 (n / 2 ^ ebShift m n) 0 1
    hx0 hy0 hnbe le_rfl (by ring) (by ring) rfl
  rw [extended_binary_gcd_eq m n c' d' g hout]
  have hmz : (m : Int) = (2 : Int) ^ ebShift m n *
      ((m / 2 ^ ebShift m n : Nat) : Int) := by exact_mod_cast hxm
  have hnz : (n : Int) = (2 : Int) ^ ebShift m n *
      ((n / 2 ^ ebShift m n : Nat) : Int) := by exact_mod_cast hyn
  constructor
  · calc c' * (m : Int) + d' * n
        = (2 : Int) ^ ebShift m n *
          (c' * ((m / 2 ^ ebShift m n : Nat) : Int) +
            d' * ((n / 2 ^ ebShift m n : Nat) : Int)) := by
          rw [hmz, hnz]; ring
      _ = (2 : Int) ^ ebShift m n * (g : Int) := by rw [hbez]
      _ = ((g * 2 ^ ebShift m n : Nat) : Int) := by push_cast; ring
  · show g * 2 ^ ebShift m n = Nat.gcd m n
    obtain ⟨x, hx⟩ : ∃ x, m / 2 ^ ebShift m n = x := ⟨_, rfl⟩
    obtain ⟨y, hy⟩ : ∃ y, n / 2 ^ ebShift m n = y := ⟨_, rfl⟩
    obtain ⟨s, hsv⟩ : ∃ s, ebShift m n = s := ⟨_, rfl⟩
    rw [hsv] at hx hy hxm hyn hg
    rw [hx] at hxm hg
    rw [hy] at hyn hg
    rw [hsv]
    conv_rhs => rw [hxm, hyn]
    rw [Nat.gcd_mul_left, hg]
    ring

theorem addUntilNonneg_spec :
    ∀ (f : Nat) (a nn : Int), 0 < nn → a < nn → 0 ≤ a + f * nn →
      0 ≤ addUntilNonneg f a nn ∧ addUntilNonneg f a nn < nn ∧
        addUntilNonneg f a nn % nn = a % nn
  | 0, a, nn, hnn, hlt, hge => by
    simp only [addUntilNonneg]
    refine ⟨by simpa using hge, hlt, trivial⟩
  | f + 1, a, nn, hnn, hlt, hge => by
    simp only [addUntilNonneg]
    by_cases ha : a < 0
    · rw [if_pos ha]
      have hge' : 0 ≤ (a + nn) + f * nn := by
        have hc : ((f + 1 : Nat) : Int) * nn = (f : Int) * nn + nn := by
          push_cast; ring
        rw [hc] at hge
        linarith
      obtain ⟨h0, h1, h2⟩ :=
        addUntilNonneg_spec f (a + nn) nn hnn (by omega) hge'
      refine ⟨h0, h1, ?_⟩
      rw [h2, show a + nn = a + nn * 1 from by ring, Int.add_mul_emod_self_left]
    · rw [if_neg ha]
      exact ⟨by omega, hlt, rfl⟩

/-- C10: for positive `m` and `n ≥ 2`, `extended_binary_gcd` returns Bezout
coefficients for its returned gcd, the returned gcd is `gcd m n`, and
`mod_inverse m n` returns `some t` with `0 ≤ t < n` and `m·t ≡ 1 (mod n)`
exactly when `gcd m n = 1`, and `none` otherwise. -/
theorem C10_mod_inverse_correct (m n : Nat) (hm : 0 < m) (hn : 2 ≤ n) :
    ((extended_binary_gcd m n).1 * m + (extended_binary_gcd m n).2.1 * n :
      Int) = ((extended_binary_gcd m n).2.2 : Int) ∧
    (extended_binary_gcd m n).2.2 = Nat.gcd m n ∧
    (Nat.gcd m n = 1 → ∃ t, mod_inverse m n = some t ∧ 0 ≤ t ∧ t < (n : Int) ∧
      (m : Int) * t % (n : Int) = 1) ∧
    (Nat.gcd m n ≠ 1 → mod_inverse m n = none) := by
  have hm0 : m ≠ 0 := by omega
  have hn0 : n ≠ 0 := by omega
  obtain ⟨hbez, hg⟩ := extended_binary_gcd_spec m n hm0 hn0
  refine ⟨hbez, hg, ?_, ?_⟩
  · intro h1
    have hgone : (extended_binary_gcd m n).2.2 = 1 := by rw [hg, h1]
    have hbez1 : (extended_binary_gcd m n).1 * (m : Int) +
        (extended_binary_gcd m n).2.1 * n = 1 := by
      rw [hbez, hgone]
      norm_num
    have key : ∀ t : Int, t % (n : Int) = (extended_binary_gcd m n).1 % n →
        (m : Int) * t % n = 1 := by
      intro t ht
      have hswap : (m : Int) * (extended_binary_gcd m n).1 =
          1 - (extended_binary_gcd m n).2.1 * n := by
        linear_combination hbez1
      have hmul : (m : Int) * t % n = (m : Int) *
          (extended_binary_gcd m n).1 % n := by
        rw [Int.mul_emod, ht, ← Int.mul_emod]
      rw [hmul, hswap, Int.sub_emod, Int.mul_emod_left]
      have h1n : (1 : Int) % n = 1 :=
        Int.emod_eq_of_lt (by omega) (by exact_mod_cast by omega)
      rw [h1n]
      norm_num
      exact h1n
    simp only [mod_inverse]
    rw [if_neg (by rw [hgone]; exact fun h => h rfl)]
    by_cases hA : (extended_binary_gcd m n).1 < 0
    · rw [if_pos hA]
      have hnabs : ((extended_binary_gcd m n).1.natAbs : Int) =
          -(extended_binary_gcd m n).1 := by omega
      have hfuel : 0 ≤ (extended_binary_gcd m n).1 +
          ((extended_binary_gcd m n).1.natAbs : Nat) * (n : Int) := by
        have h1n : (1 : Int) ≤ (n : Int) := by exact_mod_cast by omega
        have habs0 : (0 : Int) ≤ ((extended_binary_gcd m n).1.natAbs : Int) :=
          Int.natCast_nonneg _
        have hmul := mul_le_mul_of_nonneg_left h1n habs0
        rw [mul_one] at hmul
        omega
      obtain ⟨h0, h1', h2⟩ := addUntilNonneg_spec
        (extended_binary_gcd m n).1.natAbs (extended_binary_gcd m n).1 n
        (by exact_mod_cast by omega) (by omega) hfuel
      exact ⟨_, rfl, h0, h1', key _ h2⟩
    · rw [if_neg hA]
      refine ⟨_, rfl, Int.emod_nonneg _ (by exact_mod_cast hn0),
        Int.emod_lt_of_pos _ (by exact_mod_cast by omega), ?_⟩
      exact key _ (Int.emod_emod_of_dvd _ dvd_rfl)
  · intro h1
    simp only [mod_inverse]
    rw [if_pos (by rw [hg]; exact h1)]

/-- C10 witness: the theorem applied at `m = 3`, `n = 7`, whose gcd is 1. -/
theorem C10_mod_inverse_correct_witness :
    (0 < 3 ∧ 2 ≤ 7 ∧ Nat.gcd 3 7 = 1) ∧
      ∃ t, mod_inverse 3 7 = some t ∧ 0 ≤ t ∧ t < ((7 : Nat) : Int) ∧
        ((3 : Nat) : Int) * t % ((7 : Nat) : Int) = 1 :=
  ⟨⟨by decide, by decide, by decide⟩,
    (C10_mod_inverse_correct 3 7 (by decide) (by decide)).2.2.1 (by decide)⟩

end RawIpa
